import Mathlib

set_option maxHeartbeats 1000000
set_option maxRecDepth 100000

/-! Shallow embedding of the tarssh tarpit server: the per-connection write
driver, bucket pass, admission-controlled event loop and timer wheel from
src/main.rs, the compact address encoding from src/peer_addr.rs, the coarse
time encoding from src/elapsed.rs, and the order-agnostic removal from
src/retain_unordered.rs, together with proofs of the specified properties. -/

namespace Tarssh

/-- Per-connection mutable state of `struct Connection` in src/main.rs
(the socket handle, peer address and start time play no role in the write
driver logic and are omitted): `bytes` is the u64 count of banner bytes
written, `failed` the u16 count of consecutive WOULDBLOCK outcomes. -/
structure Connection where
  bytes : Nat
  failed : Nat
deriving DecidableEq, Repr

/-- Outcome of one `connection.sock.try_write(slice)` call, as distinguished
by the match in src/main.rs lines 269-295: success with a byte count,
ErrorKind::Interrupted, ErrorKind::WouldBlock, or any other I/O error. -/
inductive WriteOutcome where
  | ok (n : Nat)
  | interrupted
  | wouldBlock
  | otherErr
deriving DecidableEq, Repr

/-- Cause recorded in the disconnect log line: the synthesized Timed Out
error for exhausted backpressure budget, or the underlying I/O error. -/
inductive EvictCause where
  | timedOut
  | ioError
deriving DecidableEq, Repr

/-- Observable effect of the write-driver closure body on one connection:
the updated connection record, whether the closure returned true (the
connection is retained in its bucket), the cause logged if a disconnect
line was emitted, whether num_clients was decremented, and the bytes added
to the global byte counter. -/
structure StepOut where
  conn : Connection
  retained : Bool
  cause : Option EvictCause
  decClients : Bool
  wrote : Nat
deriving DecidableEq, Repr

/-- The body of the retain_mut closure in src/main.rs lines 266-298, for one
connection and one write outcome. `delay` and `timeout` are the configured
durations in whole seconds; the code compares the Duration product
`delay * (failed as u32)` against `timeout`, and since both are whole-second
Durations this is exactly the Nat comparison `delay * failed < timeout`.
The u64 and u16 updates carry their wrap-arounds explicitly. -/
def writeStep (delay timeout : Nat) (c : Connection) (o : WriteOutcome) : StepOut :=
  match o with
  | .ok n =>
      -- bytes += n; connection.bytes += n; connection.failed = 0; return true
      ⟨⟨(c.bytes + n) % 2 ^ 64, 0⟩, true, none, false, n⟩
  | .interrupted =>
      -- the Interrupted arm is an empty block: control falls through to the
      -- final `false`, so the connection is dropped with no log line and no
      -- num_clients decrement
      ⟨c, false, none, false, 0⟩
  | .wouldBlock =>
      -- connection.failed += 1; retained while delay * failed < timeout,
      -- otherwise the error is replaced by Timed Out and the connection is
      -- disconnected like any other error
      if delay * ((c.failed + 1) % 2 ^ 16) < timeout then
        ⟨⟨c.bytes, (c.failed + 1) % 2 ^ 16⟩, true, none, false, 0⟩
      else
        ⟨⟨c.bytes, (c.failed + 1) % 2 ^ 16⟩, false, some .timedOut, true, 0⟩
  | .otherErr =>
      -- num_clients -= 1; log disconnect with the underlying error; `false`
      ⟨c, false, some .ioError, true, 0⟩

/-- One step of the lifetime of a single connection: apply the write driver
if the connection is still live, dropping it once evicted. -/
def stepAlive (delay timeout : Nat) (oc : Option Connection) (o : WriteOutcome) : Option Connection :=
  match oc with
  | none => none
  | some c =>
      if (writeStep delay timeout c o).retained then some (writeStep delay timeout c o).conn
      else none

/-- The state of one connection after a sequence of write outcomes, starting
from an arbitrary live state; `none` once the connection has been evicted. -/
def runConnFrom (delay timeout : Nat) : Option Connection → List WriteOutcome → Option Connection
  | oc, [] => oc
  | oc, o :: os => runConnFrom delay timeout (stepAlive delay timeout oc o) os

/-- The state of a connection admitted with `bytes = 0, failed = 0`
(src/main.rs lines 314-320) after a sequence of write outcomes. -/
def runConn (delay timeout : Nat) (os : List WriteOutcome) : Option Connection :=
  runConnFrom delay timeout (some ⟨0, 0⟩) os

/-- Invariant of live connection states: the backpressure counter is zero or
still strictly under the timeout budget. -/
def ConnInv (delay timeout : Nat) : Option Connection → Prop
  | none => True
  | some c => c.failed = 0 ∨ delay * c.failed < timeout

theorem stepAlive_inv (delay timeout : Nat) (oc : Option Connection) (o : WriteOutcome)
    (h : ConnInv delay timeout oc) : ConnInv delay timeout (stepAlive delay timeout oc o) := by
  match oc with
  | none => simpa [stepAlive] using h
  | some c =>
    match o with
    | .ok n => simp [stepAlive, writeStep, ConnInv]
    | .interrupted => simp [stepAlive, writeStep, ConnInv]
    | .wouldBlock =>
      by_cases hlt : delay * ((c.failed + 1) % 65536) < timeout
      · have hs : stepAlive delay timeout (some c) .wouldBlock
            = some ⟨c.bytes, (c.failed + 1) % 2 ^ 16⟩ := by
          simp [stepAlive, writeStep, hlt]
        rw [hs]
        exact Or.inr hlt
      · have hs : stepAlive delay timeout (some c) .wouldBlock = none := by
          simp [stepAlive, writeStep, hlt]
        rw [hs]
        trivial
    | .otherErr => simp [stepAlive, writeStep, ConnInv]

theorem runConnFrom_inv (delay timeout : Nat) (os : List WriteOutcome)
    (oc : Option Connection) (h : ConnInv delay timeout oc) :
    ConnInv delay timeout (runConnFrom delay timeout oc os) := by
  induction os generalizing oc with
  | nil => simpa [runConnFrom] using h
  | cons o os ih =>
    simpa [runConnFrom] using ih _ (stepAlive_inv delay timeout oc o h)

theorem runConn_inv (delay timeout : Nat) (os : List WriteOutcome) :
    ConnInv delay timeout (runConn delay timeout os) := by
  exact runConnFrom_inv delay timeout os _ (Or.inl rfl)

/-- A live reachable connection has `failed + 1 < 2 ^ 16`, so the u16
increment on a would-block outcome never wraps: `delay` is a NonZeroU16
(at least 1) and `timeout` a u16 (at most 65535). -/
theorem reachable_failed_small (delay timeout : Nat) (hd : 1 ≤ delay) (ht : timeout ≤ 65535)
    (os : List WriteOutcome) (c : Connection) (hr : runConn delay timeout os = some c) :
    c.failed + 1 < 2 ^ 16 := by
  have h := runConn_inv delay timeout os
  rw [hr] at h
  rcases h with h | h
  · omega
  · have hle : 1 * c.failed ≤ delay * c.failed := Nat.mul_le_mul_right c.failed hd
    omega

/-- The full `slots[tick].retain_mut(..)` pass of src/main.rs lines 266-298
over the active bucket, each connection paired with the outcome of its one
try_write call: returns the retained bucket (order preserved, as retain_mut
does), the number of num_clients decrements, and the bytes added to the
global counter. -/
def bucketPass (delay timeout : Nat) :
    List (Connection × WriteOutcome) → List Connection × Nat × Nat
  | [] => ([], 0, 0)
  | (c, o) :: rest =>
      let r := writeStep delay timeout c o
      let p := bucketPass delay timeout rest
      ((if r.retained then [r.conn] else []) ++ p.1,
       (if r.decClients then 1 else 0) + p.2.1,
       r.wrote + p.2.2)

/-- C1: for every connection reachable by some sequence of write outcomes
from admission, the backpressure counter `failed` is reset to 0 by any
successful write (which retains the connection), a would-block outcome
increments it by exactly 1 (the u16 increment cannot wrap for reachable
states when `delay ≥ 1` and `timeout ≤ 65535`, the ranges of the NonZeroU16
and u16 options), and the would-block outcome evicts the connection — with a
timed-out cause and a num_clients decrement — exactly when
`delay * (failed + 1) ≥ timeout`, retaining it on any earlier would-block. -/
theorem backpressure_budget (delay timeout n : Nat) (hd : 1 ≤ delay) (ht : timeout ≤ 65535)
    (os : List WriteOutcome) (c : Connection) (hr : runConn delay timeout os = some c) :
    ((writeStep delay timeout c (.ok n)).conn.failed = 0
      ∧ (writeStep delay timeout c (.ok n)).retained = true)
    ∧ (writeStep delay timeout c .wouldBlock).conn.failed = c.failed + 1
    ∧ ((writeStep delay timeout c .wouldBlock).retained = false ↔
        timeout ≤ delay * (c.failed + 1))
    ∧ ((writeStep delay timeout c .wouldBlock).cause = some .timedOut ↔
        timeout ≤ delay * (c.failed + 1))
    ∧ ((writeStep delay timeout c .wouldBlock).decClients = true ↔
        timeout ≤ delay * (c.failed + 1)) := by
  have hsmall : c.failed + 1 < 2 ^ 16 :=
    reachable_failed_small delay timeout hd ht os c hr
  have hmod : (c.failed + 1) % 2 ^ 16 = c.failed + 1 := Nat.mod_eq_of_lt hsmall
  refine ⟨⟨rfl, rfl⟩, ?_, ?_, ?_, ?_⟩ <;>
    · simp only [writeStep, hmod]
      by_cases hlt : delay * (c.failed + 1) < timeout <;>
        simp [hlt] <;> omega

theorem backpressure_budget_witness :
    (((writeStep 10 30 ⟨0, 1⟩ (.ok 4)).conn.failed = 0
      ∧ (writeStep 10 30 ⟨0, 1⟩ (.ok 4)).retained = true)
    ∧ (writeStep 10 30 ⟨0, 1⟩ .wouldBlock).conn.failed = 1 + 1
    ∧ ((writeStep 10 30 ⟨0, 1⟩ .wouldBlock).retained = false ↔ 30 ≤ 10 * (1 + 1))
    ∧ ((writeStep 10 30 ⟨0, 1⟩ .wouldBlock).cause = some .timedOut ↔ 30 ≤ 10 * (1 + 1))
    ∧ ((writeStep 10 30 ⟨0, 1⟩ .wouldBlock).decClients = true ↔ 30 ≤ 10 * (1 + 1))) :=
  backpressure_budget 10 30 4 (by decide) (by decide)
    [WriteOutcome.wouldBlock] ⟨0, 1⟩ (by decide)

/-- C2: a write outcome that is an I/O error other than would-block or
interrupted makes the driver log a disconnect with the underlying error,
decrement num_clients by exactly 1, and drop the connection from its bucket
(the closure returns false, so retain_mut removes it). -/
theorem other_error_evicts (delay timeout : Nat) (c : Connection)
    (rest : List (Connection × WriteOutcome)) :
    writeStep delay timeout c .otherErr
      = ⟨c, false, some .ioError, true, 0⟩
    ∧ (bucketPass delay timeout ((c, .otherErr) :: rest)).1
        = (bucketPass delay timeout rest).1
    ∧ (bucketPass delay timeout ((c, .otherErr) :: rest)).2.1
        = 1 + (bucketPass delay timeout rest).2.1 := by
  refine ⟨rfl, ?_, ?_⟩ <;> simp [bucketPass, writeStep]

/-- C7: at the failing input — any connection whose write attempt returns
ErrorKind::Interrupted — the empty Interrupted match arm falls through to
the final `false` of the retain_mut closure, so the code drops the
connection from its bucket (closing the socket) with no disconnect log and
no num_clients decrement, instead of retaining it for the next rotation as
the spec prescribes. The connection record itself is left unchanged. -/
theorem interrupted_falls_through (delay timeout : Nat) (c : Connection)
    (rest : List (Connection × WriteOutcome)) :
    (writeStep delay timeout c .interrupted).retained = false
    ∧ (writeStep delay timeout c .interrupted).conn = c
    ∧ (writeStep delay timeout c .interrupted).decClients = false
    ∧ (writeStep delay timeout c .interrupted).cause = none
    ∧ (bucketPass delay timeout ((c, .interrupted) :: rest)).1
        = (bucketPass delay timeout rest).1 := by
  refine ⟨rfl, rfl, rfl, rfl, ?_⟩
  simp [bucketPass, writeStep]

/-- The bucket index yielded by the ticker at its k-th firing:
`stream::iter(0..max_tick).cycle().zip(timer)` yields 0, 1, ..., D-1, 0, ...
so firing k carries tick `k % delay`. -/
def tickAt (delay k : Nat) : Nat := k % delay

/-- Mutable state of the event loop in `main` (src/main.rs lines 227-336):
the number of ticker firings so far (implicit in the position of the cycled
iterator), `last_tick`, the three counters, and the slot ring. -/
structure LoopState where
  ticks : Nat
  lastTick : Nat
  numClients : Nat
  totalClients : Nat
  bytes : Nat
  slots : List (List Connection)
deriving DecidableEq, Repr

/-- Initial loop state: `last_tick = 0`, counters zero, `max_tick` empty
buckets (src/main.rs lines 227-236). -/
def loopInit (delay : Nat) : LoopState :=
  ⟨0, 0, 0, 0, 0, List.replicate delay []⟩

/-- Effect of one ticker firing (src/main.rs lines 264-299): set `last_tick`
to the tick just yielded, then run the write driver over the active bucket,
with `outs` the outcomes of the try_write calls, one per connection. -/
def tickState (delay timeout : Nat) (s : LoopState) (outs : List WriteOutcome) : LoopState :=
  let tick := tickAt delay s.ticks
  let bucket := s.slots.getD tick []
  let p := bucketPass delay timeout (bucket.zip outs)
  ⟨s.ticks + 1, tick, s.numClients - p.2.1, s.totalClients,
   s.bytes + p.2.2, s.slots.set tick p.1⟩

/-- Effect of a successful accept (src/main.rs lines 300-321): increment
`num_clients` and `total_clients` and push a fresh connection record with
`bytes = 0, failed = 0` onto the bucket that is active in this tick,
`slots[last_tick]`. -/
def admitConn (s : LoopState) : LoopState :=
  ⟨s.ticks, s.lastTick, s.numClients + 1, s.totalClients + 1, s.bytes,
   s.slots.set s.lastTick (s.slots.getD s.lastTick [] ++ [⟨0, 0⟩])⟩

/-- One iteration of the `tokio::select!` loop. Every accept-branch
constructor carries the guard `numClients < maxClients`, because the accept
source is polled only under the select guard `if num_clients < max_clients`.
The shutdown branch exits the loop and is not a step. -/
inductive LoopStep (maxClients delay timeout : Nat) : LoopState → LoopState → Prop where
  | tick (s : LoopState) (outs : List WriteOutcome)
      (h : outs.length = (s.slots.getD (tickAt delay s.ticks) []).length) :
      LoopStep maxClients delay timeout s (tickState delay timeout s outs)
  | accept (s : LoopState) (h : s.numClients < maxClients) :
      LoopStep maxClients delay timeout s (admitConn s)
  | acceptNoPeer (s : LoopState) (h : s.numClients < maxClients) :
      LoopStep maxClients delay timeout s s
  | acceptFailed (s : LoopState) (h : s.numClients < maxClients) :
      LoopStep maxClients delay timeout s s
  | signalInfo (s : LoopState) :
      LoopStep maxClients delay timeout s s

/-- States of the event loop reachable from startup. -/
inductive Reach (maxClients delay timeout : Nat) : LoopState → Prop where
  | init : Reach maxClients delay timeout (loopInit delay)
  | step {s s' : LoopState} : Reach maxClients delay timeout s →
      LoopStep maxClients delay timeout s s' → Reach maxClients delay timeout s'

/-- Total number of connection records held in the slot ring. -/
def connCount (s : LoopState) : Nat := (s.slots.map List.length).sum

theorem bucketPass_length_le (delay timeout : Nat)
    (l : List (Connection × WriteOutcome)) :
    (bucketPass delay timeout l).1.length ≤ l.length := by
  induction l with
  | nil => simp [bucketPass]
  | cons x rest ih =>
    obtain ⟨c, o⟩ := x
    by_cases hr : (writeStep delay timeout c o).retained <;>
      simp [bucketPass, hr] <;> omega

theorem sum_map_length_set_le (sl : List (List Connection)) (i : Nat) (x : List Connection)
    (hx : x.length ≤ (sl.getD i []).length) :
    ((sl.set i x).map List.length).sum ≤ (sl.map List.length).sum := by
  induction sl generalizing i with
  | nil => simp
  | cons a rest ih =>
    cases i with
    | zero =>
      simp only [List.getD_cons_zero] at hx
      simp only [List.set_cons_zero, List.map_cons, List.sum_cons]
      omega
    | succ j =>
      simp only [List.getD_cons_succ] at hx
      simp only [List.set_cons_succ, List.map_cons, List.sum_cons]
      exact Nat.add_le_add_left (ih j hx) _

theorem numClients_le_of_reach (maxClients delay timeout : Nat) (s : LoopState)
    (hs : Reach maxClients delay timeout s) : s.numClients ≤ maxClients := by
  induction hs with
  | init => simp [loopInit]
  | step hr hstep ih =>
    cases hstep with
    | tick outs h => simp only [tickState]; omega
    | accept h => simp only [admitConn]; omega
    | acceptNoPeer h => exact ih
    | acceptFailed h => exact ih
    | signalInfo => exact ih

theorem connCount_tickState_le (delay timeout : Nat) (s : LoopState)
    (outs : List WriteOutcome) :
    connCount (tickState delay timeout s outs) ≤ connCount s := by
  simp only [connCount, tickState]
  refine sum_map_length_set_le _ _ _ ?_
  calc (bucketPass delay timeout ((s.slots.getD (tickAt delay s.ticks) []).zip outs)).1.length
      ≤ ((s.slots.getD (tickAt delay s.ticks) []).zip outs).length :=
        bucketPass_length_le _ _ _
    _ ≤ (s.slots.getD (tickAt delay s.ticks) []).length := by
        simp [List.length_zip]

/-- C3: in every reachable loop state, `num_clients ≤ max_clients`; from a
state at the ceiling, no step admits a connection (`total_clients` is
unchanged, `num_clients` does not grow, and no Connection record is added
to the ring, because every accept branch is guarded by
`num_clients < max_clients`); and from any state strictly below the
ceiling an admission step is enabled. -/
theorem admission_ceiling (maxClients delay timeout : Nat) (s : LoopState)
    (hs : Reach maxClients delay timeout s) :
    s.numClients ≤ maxClients
    ∧ (∀ s', LoopStep maxClients delay timeout s s' → s.numClients = maxClients →
        s'.totalClients = s.totalClients ∧ s'.numClients ≤ s.numClients
        ∧ connCount s' ≤ connCount s)
    ∧ (s.numClients < maxClients →
        LoopStep maxClients delay timeout s (admitConn s)
        ∧ (admitConn s).totalClients = s.totalClients + 1
        ∧ (admitConn s).numClients = s.numClients + 1) := by
  refine ⟨numClients_le_of_reach maxClients delay timeout s hs, ?_, ?_⟩
  · intro s' hstep hmax
    cases hstep with
    | tick outs h =>
      refine ⟨rfl, ?_, connCount_tickState_le delay timeout s outs⟩
      simp only [tickState]; omega
    | accept h => omega
    | acceptNoPeer h => omega
    | acceptFailed h => omega
    | signalInfo => exact ⟨rfl, Nat.le_refl _, Nat.le_refl _⟩
  · intro hlt
    exact ⟨LoopStep.accept s hlt, rfl, rfl⟩

theorem admission_ceiling_witness :
    (loopInit 10).numClients ≤ 2
    ∧ (∀ s', LoopStep 2 10 30 (loopInit 10) s' → (loopInit 10).numClients = 2 →
        s'.totalClients = (loopInit 10).totalClients
        ∧ s'.numClients ≤ (loopInit 10).numClients
        ∧ connCount s' ≤ connCount (loopInit 10))
    ∧ ((loopInit 10).numClients < 2 →
        LoopStep 2 10 30 (loopInit 10) (admitConn (loopInit 10))
        ∧ (admitConn (loopInit 10)).totalClients = (loopInit 10).totalClients + 1
        ∧ (admitConn (loopInit 10)).numClients = (loopInit 10).numClients + 1) :=
  admission_ceiling 2 10 30 (loopInit 10) Reach.init

theorem tickAt_add_self (delay k : Nat) : tickAt delay (k + delay) = tickAt delay k :=
  Nat.add_mod_right k delay

theorem tickAt_ne_of_between (delay k m : Nat) (h1 : k < m) (h2 : m < k + delay) :
    tickAt delay m ≠ tickAt delay k := by
  intro h
  simp only [tickAt] at h
  have hk := Nat.div_add_mod k delay
  have hm := Nat.div_add_mod m delay
  have hq : k / delay < m / delay := by
    refine Nat.lt_of_mul_lt_mul_left (a := delay) ?_
    omega
  have hq2 : m / delay < k / delay + 1 := by
    refine Nat.lt_of_mul_lt_mul_left (a := delay) ?_
    rw [Nat.mul_add, Nat.mul_one]
    omega
  omega

theorem eq_of_between_same_tick (delay k m1 m2 : Nat)
    (h1 : k < m1) (h2 : m1 < k + delay) (h3 : k < m2) (h4 : m2 < k + delay)
    (he : tickAt delay m1 = tickAt delay m2) : m1 = m2 := by
  rcases Nat.lt_trichotomy m1 m2 with h | h | h
  · exact absurd he.symm (tickAt_ne_of_between delay m1 m2 h (by omega))
  · exact h
  · exact absurd he (tickAt_ne_of_between delay m2 m1 h (by omega))

/-- Strictly between two consecutive visits of a bucket, every other bucket
index is the active tick exactly once. -/
theorem unique_visit_between (delay k b : Nat) (hb : b < delay) (hne : b ≠ tickAt delay k) :
    ∃! m, (k < m ∧ m < k + delay) ∧ tickAt delay m = b := by
  have hk := Nat.div_add_mod k delay
  have hrlt : k % delay < delay := Nat.mod_lt k (by omega)
  simp only [tickAt] at hne ⊢
  rcases Nat.lt_or_ge (k % delay) b with hcase | hcase
  · -- b is ahead of the current offset inside this rotation
    have hm : k + (b - k % delay) = delay * (k / delay) + b := by omega
    have hmod : (k + (b - k % delay)) % delay = b := by
      rw [hm, Nat.mul_add_mod, Nat.mod_eq_of_lt hb]
    refine ⟨k + (b - k % delay), ⟨⟨by omega, by omega⟩, hmod⟩, ?_⟩
    intro y hy
    exact eq_of_between_same_tick delay k y _ hy.1.1 hy.1.2 (by omega) (by omega)
      (by simp only [tickAt]; rw [hy.2, hmod])
  · -- b has already passed: it recurs in the next rotation
    have hblt : b < k % delay := by omega
    have hm : k + (delay - k % delay + b) = delay * (k / delay + 1) + b := by
      rw [Nat.mul_add, Nat.mul_one]; omega
    have hmod : (k + (delay - k % delay + b)) % delay = b := by
      rw [hm, Nat.mul_add_mod, Nat.mod_eq_of_lt hb]
    refine ⟨k + (delay - k % delay + b), ⟨⟨by omega, by omega⟩, hmod⟩, ?_⟩
    intro y hy
    exact eq_of_between_same_tick delay k y _ hy.1.1 hy.1.2 (by omega) (by omega)
      (by simp only [tickAt]; rw [hy.2, hmod])

/-- In every reachable state the slot ring keeps its `delay` buckets and
`last_tick` stays in range. -/
theorem reach_slots_wf (maxClients delay timeout : Nat) (hD : 1 ≤ delay) (s : LoopState)
    (hs : Reach maxClients delay timeout s) :
    s.slots.length = delay ∧ s.lastTick < delay := by
  induction hs with
  | init => exact ⟨by simp [loopInit], hD⟩
  | step hr hstep ih =>
    cases hstep with
    | tick outs h =>
      refine ⟨?_, ?_⟩
      · simp only [tickState, List.length_set]; exact ih.1
      · simp only [tickState, tickAt]; exact Nat.mod_lt _ (by omega)
    | accept h =>
      simpa only [admitConn, List.length_set] using ih
    | acceptNoPeer h => exact ih
    | acceptFailed h => exact ih
    | signalInfo => exact ih

/-- In every reachable state, `last_tick` is the tick carried by the most
recent ticker firing (0 before the first firing). -/
theorem reach_lastTick (maxClients delay timeout : Nat) (s : LoopState)
    (hs : Reach maxClients delay timeout s) :
    (s.ticks = 0 ∧ s.lastTick = 0) ∨ ∃ j, s.ticks = j + 1 ∧ s.lastTick = tickAt delay j := by
  induction hs with
  | init => exact Or.inl ⟨rfl, rfl⟩
  | step hr hstep ih =>
    cases hstep with
    | tick outs h => exact Or.inr ⟨_, rfl, rfl⟩
    | accept h => simpa [admitConn] using ih
    | acceptNoPeer h => exact ih
    | acceptFailed h => exact ih
    | signalInfo => exact ih

theorem getD_set_ne (l : List (List Connection)) (i j : Nat) (x : List Connection)
    (h : i ≠ j) : (l.set i x).getD j [] = l.getD j [] := by
  simp [List.getD, List.getElem?_set_ne h]

/-- C4: the timer-wheel contract. (1) Whenever admission is enabled, the
admitted connection is appended to the bucket `slots[last_tick]` that is
active in the current tick, where `last_tick` is the tick of the most
recent firing `j` (0 before any firing). (2) The bucket fired at firing
`k` fires again exactly `delay` firings (= seconds) later and at no firing
in between — so a connection admitted during the second after firing `j`
gets its first write attempt no later than `delay` seconds after admission.
(3) Within one firing only the active bucket `tickAt delay ticks` is
processed — every other bucket is untouched — and the pass pairs each
connection of the active bucket with exactly one write outcome. (4) Strictly
between consecutive visits `k` and `k + delay` of a bucket, every other
bucket index `b < delay` is the active tick exactly once, so no connection
is visited twice before every other bucket has had its turn. -/
theorem timer_wheel (maxClients delay timeout : Nat) (s : LoopState)
    (hs : Reach maxClients delay timeout s) (k b : Nat) (hb : b < delay) :
    (s.numClients < maxClients →
      LoopStep maxClients delay timeout s (admitConn s)
      ∧ (admitConn s).slots.getD s.lastTick [] = s.slots.getD s.lastTick [] ++ [⟨0, 0⟩]
      ∧ ((s.ticks = 0 ∧ s.lastTick = 0)
          ∨ ∃ j, s.ticks = j + 1 ∧ s.lastTick = tickAt delay j))
    ∧ tickAt delay (k + delay) = tickAt delay k
    ∧ (∀ m, k < m → m < k + delay → tickAt delay m ≠ tickAt delay k)
    ∧ (∀ outs, outs.length = (s.slots.getD (tickAt delay s.ticks) []).length →
        ((s.slots.getD (tickAt delay s.ticks) []).zip outs).map Prod.fst
            = s.slots.getD (tickAt delay s.ticks) []
        ∧ ∀ bb, bb ≠ tickAt delay s.ticks →
            (tickState delay timeout s outs).slots.getD bb []
              = s.slots.getD bb [])
    ∧ (b ≠ tickAt delay k → ∃! m, (k < m ∧ m < k + delay) ∧ tickAt delay m = b) := by
  refine ⟨?_, tickAt_add_self delay k, ?_, ?_, ?_⟩
  · intro hlt
    refine ⟨LoopStep.accept s hlt, ?_, reach_lastTick maxClients delay timeout s hs⟩
    have hwf := reach_slots_wf maxClients delay timeout (by omega) s hs
    have hrange : s.lastTick < s.slots.length := by omega
    simp [admitConn, List.getD, List.getElem?_set_eq_of_lt _ hrange]
  · intro m h1 h2
    exact tickAt_ne_of_between delay k m h1 h2
  · intro outs houts
    constructor
    · exact List.map_fst_zip _ _ (by omega)
    · intro bb hbb
      simp only [tickState]
      exact getD_set_ne _ _ _ _ (fun hx => hbb hx.symm)
  · intro hne
    exact unique_visit_between delay k b hb hne

theorem timer_wheel_witness :
    ((loopInit 3).numClients < 4 →
      LoopStep 4 3 30 (loopInit 3) (admitConn (loopInit 3))
      ∧ (admitConn (loopInit 3)).slots.getD (loopInit 3).lastTick []
          = (loopInit 3).slots.getD (loopInit 3).lastTick [] ++ [⟨0, 0⟩]
      ∧ (((loopInit 3).ticks = 0 ∧ (loopInit 3).lastTick = 0)
          ∨ ∃ j, (loopInit 3).ticks = j + 1 ∧ (loopInit 3).lastTick = tickAt 3 j))
    ∧ tickAt 3 (5 + 3) = tickAt 3 5
    ∧ (∀ m, 5 < m → m < 5 + 3 → tickAt 3 m ≠ tickAt 3 5)
    ∧ (∀ outs, outs.length = ((loopInit 3).slots.getD (tickAt 3 (loopInit 3).ticks) []).length →
        (((loopInit 3).slots.getD (tickAt 3 (loopInit 3).ticks) []).zip outs).map Prod.fst
            = (loopInit 3).slots.getD (tickAt 3 (loopInit 3).ticks) []
        ∧ ∀ bb, bb ≠ tickAt 3 (loopInit 3).ticks →
            (tickState 3 30 (loopInit 3) outs).slots.getD bb []
              = (loopInit 3).slots.getD bb [])
    ∧ (1 ≠ tickAt 3 5 → ∃! m, (5 < m ∧ m < 5 + 3) ∧ tickAt 3 m = 1) :=
  timer_wheel 4 3 30 (loopInit 3) Reach.init 5 1 (by decide)

/-- The 197 bytes of the static BANNER of src/main.rs lines 33-42, the Yon
Yonson verse: eight lines each terminated by CR LF (13, 10), followed by the
unterminated tail bytes of the phrase I say colon space. -/
def BANNER : List Nat := [
  77, 121, 32, 110, 97, 109, 101, 32, 105, 115, 32, 89, 111, 110, 32, 89, 111, 110, 115,
  111, 110, 44, 13, 10, 73, 32, 108, 105, 118, 101, 32, 105, 110, 32, 87, 105, 115, 99,
  111, 110, 115, 105, 110, 46, 13, 10, 73, 32, 119, 111, 114, 107, 32, 105, 110, 32, 97,
  32, 108, 117, 109, 98, 101, 114, 32, 121, 97, 114, 100, 32, 116, 104, 101, 114, 101, 46,
  13, 10, 84, 104, 101, 32, 112, 101, 111, 112, 108, 101, 32, 73, 32, 109, 101, 101, 116,
  32, 97, 115, 13, 10, 73, 32, 119, 97, 108, 107, 32, 100, 111, 119, 110, 32, 116, 104,
  101, 32, 115, 116, 114, 101, 101, 116, 44, 13, 10, 84, 104, 101, 121, 32, 115, 97, 121,
  32, 34, 72, 101, 108, 108, 111, 33, 34, 13, 10, 73, 32, 115, 97, 121, 32, 34, 72,
  101, 108, 108, 111, 33, 34, 13, 10, 84, 104, 101, 121, 32, 115, 97, 121, 32, 34, 87,
  104, 97, 116, 39, 115, 32, 121, 111, 117, 114, 32, 110, 97, 109, 101, 46, 34, 13, 10,
  73, 32, 115, 97, 121, 58, 32]

/-- `Iterator::position`: index of the first element satisfying p. -/
def position (p : Nat → Bool) : List Nat → Option Nat
  | [] => none
  | x :: xs => if p x then some 0 else (position p xs).map (· + 1)

theorem position_eq_some (p : Nat → Bool) (l : List Nat) (j : Nat)
    (h : position p l = some j) :
    j < l.length ∧ p (l.getD j 0) = true ∧ ∀ i, i < j → p (l.getD i 0) = false := by
  induction l generalizing j with
  | nil => simp [position] at h
  | cons x xs ih =>
    by_cases hx : p x
    · simp [position, hx] at h
      subst h
      exact ⟨by simp, by simpa using hx, fun i hi => absurd hi (by omega)⟩
    · simp [position, hx] at h
      obtain ⟨j', hj', rfl⟩ := h
      obtain ⟨h1, h2, h3⟩ := ih j' hj'
      refine ⟨by simpa using h1, by simpa using h2, ?_⟩
      intro i hi
      cases i with
      | zero => simpa using hx
      | succ i' => simpa using h3 i' (by omega)

theorem position_eq_none (p : Nat → Bool) (l : List Nat)
    (h : position p l = none) : ∀ i, i < l.length → p (l.getD i 0) = false := by
  induction l with
  | nil => intro i hi; simp at hi
  | cons x xs ih =>
    by_cases hx : p x
    · simp [position, hx] at h
    · simp [position, hx] at h
      intro i hi
      cases i with
      | zero => simpa using hx
      | succ i' => simpa using ih h i' (by simpa using hi)

/-- The banner slicing of src/main.rs lines 267-268: `pos` is the suffix of
the banner starting at `connection.bytes % BANNER.len()` and the slice
offered to try_write is the inclusive range
`pos[..=pos.iter().position(b == LF).unwrap_or(pos.len() - 1)]`. -/
def fragment (banner : List Nat) (bytes : Nat) : List Nat :=
  (banner.drop (bytes % banner.length)).take
    (((position (fun b => b == 10) (banner.drop (bytes % banner.length))).getD
        ((banner.drop (bytes % banner.length)).length - 1)) + 1)

/-- C10: for every value of the per-connection bytes counter the slicing is
in bounds: the offset is below the banner length, the suffix from the
offset is nonempty, the inclusive upper index (first newline of the suffix,
or its last index) is within the suffix, and the offered fragment holds at
least one byte — the slicing cannot panic and every attempt sends
something. -/
theorem fragment_in_bounds (b : Nat) :
    b % BANNER.length < BANNER.length
    ∧ 0 < (BANNER.drop (b % BANNER.length)).length
    ∧ (position (fun x => x == 10) (BANNER.drop (b % BANNER.length))).getD
        ((BANNER.drop (b % BANNER.length)).length - 1)
        < (BANNER.drop (b % BANNER.length)).length
    ∧ 0 < (fragment BANNER b).length := by
  have hlen : BANNER.length = 197 := by decide
  have hmod : b % BANNER.length < BANNER.length := Nat.mod_lt b (by omega)
  have hdrop : (BANNER.drop (b % BANNER.length)).length = BANNER.length - b % BANNER.length := by
    simp [List.length_drop]
  refine ⟨hmod, by omega, ?_, ?_⟩
  · cases hp : position (fun x => x == 10) (BANNER.drop (b % BANNER.length)) with
    | none => simp [Option.getD]; omega
    | some j =>
      have := (position_eq_some _ _ j hp).1
      simpa using this
  · have : (fragment BANNER b).length
        = min (((position (fun x => x == 10) (BANNER.drop (b % BANNER.length))).getD
            ((BANNER.drop (b % BANNER.length)).length - 1)) + 1)
          (BANNER.drop (b % BANNER.length)).length := by
      simp [fragment, List.length_take]
    omega

theorem getD_drop_nat (l : List Nat) (i j : Nat) :
    (l.drop i).getD j 0 = l.getD (i + j) 0 := by
  simp [List.getD_eq_getElem?_getD, List.getElem?_drop]

theorem getD_take_nat (l : List Nat) (n j : Nat) (h : j < n) :
    (l.take n).getD j 0 = l.getD j 0 := by
  simp [List.getD_eq_getElem?_getD, List.getElem?_take_of_lt h]

/-- Byte j of the fragment offered at counter value s is the byte of the
cyclic banner stream at absolute position s + j. -/
theorem fragment_getD (banner : List Nat) (hL : 0 < banner.length) (s j : Nat)
    (hj : j < (fragment banner s).length) :
    (fragment banner s).getD j 0 = banner.getD ((s + j) % banner.length) 0 := by
  have hmod : s % banner.length < banner.length := Nat.mod_lt s hL
  have hfl : (fragment banner s).length
      = min (((position (fun b => b == 10) (banner.drop (s % banner.length))).getD
          ((banner.drop (s % banner.length)).length - 1)) + 1)
        (banner.drop (s % banner.length)).length := by
    simp [fragment, List.length_take]
  have hdl : (banner.drop (s % banner.length)).length
      = banner.length - s % banner.length := by
    simp [List.length_drop]
  have hj2 : j < banner.length := by omega
  have he : (s + j) % banner.length = s % banner.length + j := by
    conv_lhs => rw [Nat.add_mod]
    rw [Nat.mod_eq_of_lt hj2]
    exact Nat.mod_eq_of_lt (by omega)
  rw [he]
  have htake : j < ((position (fun b => b == 10) (banner.drop (s % banner.length))).getD
      ((banner.drop (s % banner.length)).length - 1)) + 1 := by omega
  calc (fragment banner s).getD j 0
      = (banner.drop (s % banner.length)).getD j 0 := by
        simp only [fragment]
        exact getD_take_nat _ _ _ htake
    _ = banner.getD (s % banner.length + j) 0 := getD_drop_nat _ _ _

/-- The fragment is exactly the slice of the banner from the offset to the
end of the current line: its inclusive end e carries the first newline at
or after the offset, or is the last banner index when no newline remains. -/
theorem fragment_line (banner : List Nat) (hL : 0 < banner.length) (s : Nat) :
    ∃ e, s % banner.length ≤ e ∧ e < banner.length
      ∧ fragment banner s
          = (banner.drop (s % banner.length)).take (e - s % banner.length + 1)
      ∧ (∀ k, s % banner.length ≤ k → k < e → banner.getD k 0 ≠ 10)
      ∧ (banner.getD e 0 = 10 ∨ e = banner.length - 1) := by
  have hmod : s % banner.length < banner.length := Nat.mod_lt s hL
  have hdl : (banner.drop (s % banner.length)).length
      = banner.length - s % banner.length := by
    simp [List.length_drop]
  cases hp : position (fun b => b == 10) (banner.drop (s % banner.length)) with
  | some j =>
    obtain ⟨h1, h2, h3⟩ := position_eq_some _ _ j hp
    refine ⟨s % banner.length + j, by omega, by omega, ?_, ?_, ?_⟩
    · simp only [fragment, hp, Option.getD_some]
      congr 1
      omega
    · intro k hk1 hk2
      have hk := h3 (k - s % banner.length) (by omega)
      rw [getD_drop_nat] at hk
      have hkk : s % banner.length + (k - s % banner.length) = k := by omega
      rw [hkk] at hk
      simpa using hk
    · left
      have hk := h2
      rw [getD_drop_nat] at hk
      simpa using hk
  | none =>
    refine ⟨banner.length - 1, by omega, by omega, ?_, ?_, Or.inr rfl⟩
    · simp only [fragment, hp, Option.getD_none]
      congr 1
      omega
    · intro k hk1 hk2
      have hk := position_eq_none _ _ hp (k - s % banner.length) (by omega)
      rw [getD_drop_nat] at hk
      have hkk : s % banner.length + (k - s % banner.length) = k := by omega
      rw [hkk] at hk
      simpa using hk

/-- Bytes actually transmitted over a sequence of ticks: each tick offers
the fragment at the current counter, the socket takes some prefix of it
(the n returned by try_write), and the counter advances by n. -/
def transmitted (s : Nat) : List Nat → List Nat
  | [] => []
  | n :: ns => (fragment BANNER s).take n ++ transmitted (s + n) ns

/-- Each chunk is at most the offered fragment (try_write never reports
more bytes than the length of the slice it was handed). -/
def validChunks (s : Nat) : List Nat → Bool
  | [] => true
  | n :: ns => decide (n ≤ (fragment BANNER s).length) && validChunks (s + n) ns

theorem take_fragment_eq_range_map (s n : Nat) (hn : n ≤ (fragment BANNER s).length) :
    (fragment BANNER s).take n
      = (List.range n).map (fun j => BANNER.getD ((s + j) % BANNER.length) 0) := by
  have hL : 0 < BANNER.length := by decide
  refine List.ext_getElem ?_ ?_
  · simp only [List.length_take, List.length_map, List.length_range]
    omega
  · intro i h1 h2
    rw [List.getElem_take]
    have hi : i < n := by simpa using h2
    rw [List.getElem_map, List.getElem_range]
    have hfr : i < (fragment BANNER s).length := by omega
    rw [← List.getD_eq_getElem (fragment BANNER s) 0 hfr]
    exact fragment_getD BANNER hL s i hfr

theorem transmitted_cyclic (s : Nat) (ns : List Nat) (h : validChunks s ns = true) :
    transmitted s ns
      = (List.range ns.sum).map (fun j => BANNER.getD ((s + j) % BANNER.length) 0) := by
  induction ns generalizing s with
  | nil => simp [transmitted]
  | cons n ns ih =>
    simp only [validChunks, Bool.and_eq_true, decide_eq_true_eq] at h
    obtain ⟨hn, hv⟩ := h
    simp only [transmitted, List.sum_cons]
    rw [take_fragment_eq_range_map s n hn, ih (s + n) hv, List.range_add,
      List.map_append, List.map_map]
    simp [Function.comp, Nat.add_assoc]

/-- C5: the fragment chosen at counter value s is exactly
`banner[offset .. end of the current line]` with `offset = s mod 197` (at
most one line, running to the banner end when no newline remains); each of
its bytes is the byte of the cyclic banner stream at the corresponding
absolute position; and over any sequence of write attempts, each consuming
any prefix of the offered fragment, the transmitted bytes are exactly the
banner text repeated cyclically from the starting offset — line breaks
included — regardless of how writes are chunked. -/
theorem banner_fragment_cyclic (s : Nat) (ns : List Nat) (h : validChunks s ns = true) :
    (∃ e, s % BANNER.length ≤ e ∧ e < BANNER.length
      ∧ fragment BANNER s
          = (BANNER.drop (s % BANNER.length)).take (e - s % BANNER.length + 1)
      ∧ (∀ k, s % BANNER.length ≤ k → k < e → BANNER.getD k 0 ≠ 10)
      ∧ (BANNER.getD e 0 = 10 ∨ e = BANNER.length - 1))
    ∧ (∀ j, j < (fragment BANNER s).length →
        (fragment BANNER s).getD j 0 = BANNER.getD ((s + j) % BANNER.length) 0)
    ∧ transmitted s ns
        = (List.range ns.sum).map (fun j => BANNER.getD ((s + j) % BANNER.length) 0) := by
  have hL : 0 < BANNER.length := by decide
  exact ⟨fragment_line BANNER hL s, fun j hj => fragment_getD BANNER hL s j hj,
    transmitted_cyclic s ns h⟩

theorem banner_fragment_cyclic_witness :
    validChunks 100 [3, 2, 20] = true
    ∧ ((∃ e, 100 % BANNER.length ≤ e ∧ e < BANNER.length
        ∧ fragment BANNER 100
            = (BANNER.drop (100 % BANNER.length)).take (e - 100 % BANNER.length + 1)
        ∧ (∀ k, 100 % BANNER.length ≤ k → k < e → BANNER.getD k 0 ≠ 10)
        ∧ (BANNER.getD e 0 = 10 ∨ e = BANNER.length - 1))
      ∧ (∀ j, j < (fragment BANNER 100).length →
          (fragment BANNER 100).getD j 0 = BANNER.getD ((100 + j) % BANNER.length) 0)
      ∧ transmitted 100 [3, 2, 20]
          = (List.range ([3, 2, 20] : List Nat).sum).map
              (fun j => BANNER.getD ((100 + j) % BANNER.length) 0)) :=
  ⟨by decide, banner_fragment_cyclic 100 [3, 2, 20] (by decide)⟩

/-- An IP address of either family, as the numeric value of its byte
representation (a u32 for v4, a u128 for v6), matching the std conversions
used by src/peer_addr.rs. -/
inductive IpAddr where
  | v4 (a : Nat)
  | v6 (a : Nat)
deriving DecidableEq, Repr

/-- A std SocketAddr: an IP address and a 16-bit port. -/
structure SocketAddr where
  ip : IpAddr
  port : Nat
deriving DecidableEq, Repr

/-- The packed `PeerAddr` of src/peer_addr.rs: a single 128-bit address
field and the 16-bit port. -/
structure PeerAddr where
  ip : Nat
  port : Nat
deriving DecidableEq, Repr

/-- Ipv4Addr::to_ipv6_mapped: the IPv4 value in the low 32 bits under the
::ffff:0:0/96 prefix. -/
def toIpv6Mapped (a : Nat) : Nat := 0xffff * 2 ^ 32 + a % 2 ^ 32

/-- impl From<&SocketAddr> for PeerAddr (src/peer_addr.rs lines 12-24):
IPv4 is normalized through to_ipv6_mapped, IPv6 stored as is. -/
def PeerAddr.ofSocketAddr (s : SocketAddr) : PeerAddr :=
  match s.ip with
  | .v4 a => ⟨toIpv6Mapped a, s.port⟩
  | .v6 a => ⟨a, s.port⟩

/-- Ipv6Addr::to_ipv4, used by the decoding direction: `Some` exactly when
the first five 16-bit segments are zero (the value is below 2^48) and the
sixth segment is 0 or 0xffff — the IPv4-compatible range ::/96 as well as
the IPv4-mapped range — returning the low 32 bits. -/
def toIpv4 (ip : Nat) : Option Nat :=
  if ip < 2 ^ 48 ∧ (ip / 2 ^ 32 = 0 ∨ ip / 2 ^ 32 = 0xffff) then some (ip % 2 ^ 32)
  else none

/-- impl From<&PeerAddr> for SocketAddr (src/peer_addr.rs lines 26-36):
reconstruct IPv4 when to_ipv4 succeeds, else keep IPv6. -/
def SocketAddr.ofPeerAddr (p : PeerAddr) : SocketAddr :=
  match toIpv4 p.ip with
  | some a => ⟨.v4 a, p.port⟩
  | none => ⟨.v6 p.ip, p.port⟩

/-- The addresses on which the compact encoding can round-trip: any IPv4
address (a u32 value), and any IPv6 address outside the two /96 ranges
that to_ipv4 rewrites into IPv4 on output. -/
def goodAddr : SocketAddr → Bool
  | ⟨.v4 a, _⟩ => decide (a < 2 ^ 32)
  | ⟨.v6 a, _⟩ => decide (¬(a < 2 ^ 48 ∧ (a / 2 ^ 32 = 0 ∨ a / 2 ^ 32 = 0xffff)))

/-- C6 counterexample: the IPv6 loopback ::1 (value 1) with port 0 encodes
to the raw value 1 and decodes to the IPv4 address 0.0.0.1 with port 0 —
to_ipv4 also converts the IPv4-compatible range ::/96, so the round-trip
does not return the identical IP for genuine IPv6 addresses there. -/
theorem peer_addr_roundtrip_cx :
    SocketAddr.ofPeerAddr (PeerAddr.ofSocketAddr ⟨.v6 1, 0⟩) = ⟨.v4 1, 0⟩
    ∧ SocketAddr.ofPeerAddr (PeerAddr.ofSocketAddr ⟨.v6 1, 0⟩) ≠ ⟨.v6 1, 0⟩ := by
  exact ⟨by decide, by decide⟩

/-- C6 amended: decoding the encoding preserves the port for every socket
address, and returns the identical socket address for every IPv4 address
and for every IPv6 address that lies in neither the IPv4-compatible
(::/96) nor the IPv4-mapped (::ffff:0:0/96) range. -/
theorem peer_addr_roundtrip (s : SocketAddr) :
    (SocketAddr.ofPeerAddr (PeerAddr.ofSocketAddr s)).port = s.port
    ∧ (goodAddr s = true → SocketAddr.ofPeerAddr (PeerAddr.ofSocketAddr s) = s) := by
  obtain ⟨ip, port⟩ := s
  cases ip with
  | v4 a =>
    constructor
    · simp only [PeerAddr.ofSocketAddr, SocketAddr.ofPeerAddr]
      cases toIpv4 (toIpv6Mapped a) <;> rfl
    · intro hg
      simp only [goodAddr, decide_eq_true_eq] at hg
      have h2 : toIpv4 (toIpv6Mapped a) = some a := by
        unfold toIpv4 toIpv6Mapped
        rw [if_pos (by omega)]
        congr 1
        omega
      simp [PeerAddr.ofSocketAddr, SocketAddr.ofPeerAddr, h2]
  | v6 a =>
    constructor
    · simp only [PeerAddr.ofSocketAddr, SocketAddr.ofPeerAddr]
      cases toIpv4 a <;> rfl
    · intro hg
      simp only [goodAddr, decide_eq_true_eq] at hg
      have h2 : toIpv4 a = none := by
        unfold toIpv4
        rw [if_neg hg]
      simp [PeerAddr.ofSocketAddr, SocketAddr.ofPeerAddr, h2]

theorem peer_addr_roundtrip_witness :
    goodAddr ⟨.v4 2130706433, 22⟩ = true
    ∧ ((SocketAddr.ofPeerAddr (PeerAddr.ofSocketAddr ⟨.v4 2130706433, 22⟩)).port
          = (⟨.v4 2130706433, 22⟩ : SocketAddr).port
      ∧ (goodAddr ⟨.v4 2130706433, 22⟩ = true →
          SocketAddr.ofPeerAddr (PeerAddr.ofSocketAddr ⟨.v4 2130706433, 22⟩)
            = ⟨.v4 2130706433, 22⟩)) :=
  ⟨by decide, peer_addr_roundtrip ⟨.v4 2130706433, 22⟩⟩

/-- A std Duration: whole seconds and the subsecond part in nanoseconds. -/
structure Duration where
  secs : Nat
  nanos : Nat
deriving DecidableEq, Repr

/-- Duration::subsec_millis. -/
def Duration.subsecMillis (d : Duration) : Nat := d.nanos / 1000000

/-- impl From<Instant> for Elapsed (src/elapsed.rs lines 9-14), applied to
the elapsed Duration d:
`d.as_secs() as u32 * 10 + (d.subsec_millis() as f32 / 100.0) as u32`.
The f32 step computes the integer division subsec_millis / 100 exactly:
subsec_millis is below 1000 and hence exactly representable, as is 100,
the correctly rounded quotient differs from the true rational by at most
one ulp (about 2^-17 here), far less than the 1/100 distance to the next
integer, so the truncating cast returns the floor. The `as u32` casts wrap
modulo 2^32. -/
def Elapsed.ofDuration (d : Duration) : Nat :=
  ((d.secs % 2 ^ 32) * 10 + d.subsecMillis / 100) % 2 ^ 32

/-- impl From<Elapsed> for Duration (src/elapsed.rs lines 16-20):
Duration::from_millis(counter * 100). -/
def Duration.ofElapsed (e : Nat) : Duration :=
  ⟨e * 100 / 1000, e * 100 % 1000 * 1000000⟩

/-- Total nanoseconds of a Duration, the order used to compare them. -/
def Duration.totalNanos (d : Duration) : Nat := d.secs * 1000000000 + d.nanos

/-- C9: for every duration with a canonical subsecond field and below the
2^32-decisecond wraparound (about 13.6 years), decoding the Elapsed
encoding — the counter times 100 ms — yields a duration at most the
original and less than 100 ms away from it. -/
theorem elapsed_roundtrip (d : Duration)
    (hn : d.nanos < 1000000000)
    (hw : d.secs * 10 + d.nanos / 100000000 < 2 ^ 32) :
    Duration.totalNanos (Duration.ofElapsed (Elapsed.ofDuration d))
        ≤ Duration.totalNanos d
    ∧ Duration.totalNanos d
        - Duration.totalNanos (Duration.ofElapsed (Elapsed.ofDuration d)) < 100000000 := by
  simp only [Elapsed.ofDuration, Duration.ofElapsed, Duration.totalNanos, Duration.subsecMillis]
  omega

theorem elapsed_roundtrip_witness :
    (3 : Nat) + 250000000 / 1000000000 < 1000000000
    ∧ (⟨3, 250000000⟩ : Duration).nanos < 1000000000
    ∧ (⟨3, 250000000⟩ : Duration).secs * 10
        + (⟨3, 250000000⟩ : Duration).nanos / 100000000 < 2 ^ 32
    ∧ (Duration.totalNanos (Duration.ofElapsed (Elapsed.ofDuration ⟨3, 250000000⟩))
          ≤ Duration.totalNanos ⟨3, 250000000⟩
      ∧ Duration.totalNanos ⟨3, 250000000⟩
          - Duration.totalNanos (Duration.ofElapsed (Elapsed.ofDuration ⟨3, 250000000⟩))
            < 100000000) :=
  ⟨by decide, by decide, by decide,
    elapsed_roundtrip ⟨3, 250000000⟩ (by decide) (by decide)⟩

/-- Vec::swap_remove(i): overwrite index i with the last element and pop
the last slot; when i is the last index this just removes it. -/
def swapRemove {α : Type} (l : List α) (i : Nat) : List α :=
  match l.getLast? with
  | none => l
  | some a => l.dropLast.set i a

theorem swapRemove_length {α : Type} (l : List α) (i : Nat) (h : l ≠ []) :
    (swapRemove l i).length = l.length - 1 := by
  unfold swapRemove
  rw [List.getLast?_eq_getLast l h]
  simp [List.length_set, List.length_dropLast]

theorem swapRemove_take {α : Type} (l : List α) (i : Nat) (h : i < l.length) :
    (swapRemove l i).take i = l.take i := by
  have hne : l ≠ [] := by intro hn; subst hn; simp at h
  unfold swapRemove
  rw [List.getLast?_eq_getLast l hne]
  show (l.dropLast.set i (l.getLast hne)).take i = l.take i
  rw [List.set_take, List.dropLast_eq_take, List.take_take]
  have hmin : min i (l.length - 1) = i := by omega
  rw [hmin]
  refine List.set_eq_of_length_le ?_
  simp [List.length_take]

theorem swapRemove_drop_perm {α : Type} (l : List α) (i : Nat) (h : i < l.length) :
    ((swapRemove l i).drop i).Perm (l.drop (i + 1)) := by
  have hne : l ≠ [] := by intro hn; subst hn; simp at h
  unfold swapRemove
  rw [List.getLast?_eq_getLast l hne]
  show ((l.dropLast.set i (l.getLast hne)).drop i).Perm (l.drop (i + 1))
  by_cases hlast : i = l.length - 1
  · have hout : l.dropLast.set i (l.getLast hne) = l.dropLast :=
      List.set_eq_of_length_le (by simp [List.length_dropLast]; omega)
    rw [hout]
    have h1 : l.dropLast.drop i = [] :=
      List.drop_eq_nil_of_le (by simp [List.length_dropLast]; omega)
    have h2 : l.drop (i + 1) = [] := List.drop_eq_nil_of_le (by omega)
    rw [h1, h2]
  · have hlt : i < l.dropLast.length := by simp [List.length_dropLast]; omega
    rw [List.set_eq_take_cons_drop _ hlt]
    have hlen : (l.dropLast.take i).length = i := by
      simp [List.length_take, List.length_dropLast]
      omega
    have hgen : ∀ (A B : List α), A.length = i → (A ++ B).drop i = B := by
      intro A B hA
      rw [← hA]
      exact List.drop_left A B
    have hdl : (l.dropLast.take i ++ l.getLast hne :: l.dropLast.drop (i + 1)).drop i
        = l.getLast hne :: l.dropLast.drop (i + 1) :=
      hgen _ _ hlen
    rw [hdl]
    have hsuffne : l.drop (i + 1) ≠ [] := by
      apply List.ne_nil_of_length_pos
      simp [List.length_drop]
      omega
    have htail : l.dropLast.drop (i + 1) = (l.drop (i + 1)).dropLast := by
      rw [List.dropLast_eq_take, List.drop_take, List.dropLast_eq_take, List.length_drop]
      congr 1
      omega
    have hlastd : l.getLast hne = (l.drop (i + 1)).getLast hsuffne :=
      (List.getLast_drop hsuffne).symm
    rw [htail, hlastd]
    refine List.Perm.trans (List.perm_append_singleton _ _).symm ?_
    rw [List.dropLast_append_getLast hsuffne]

/-- The while loop of retain_unordered (src/retain_unordered.rs lines
15-26), on a pure predicate, additionally recording the elements the
predicate is invoked on: while i is in range, if f holds at index i the
element is kept and i advances; otherwise the element at i is removed by
swap_remove when more than one element remains, by plain remove when it is
the only one, and index i is revisited. -/
def retainUnorderedGo {α : Type} (f : α → Bool) (l : List α) (i : Nat) (tr : List α) :
    List α × List α :=
  if h : i < l.length then
    if f l[i] then retainUnorderedGo f l (i + 1) (tr ++ [l[i]])
    else if 1 < l.length then retainUnorderedGo f (swapRemove l i) i (tr ++ [l[i]])
    else retainUnorderedGo f (l.eraseIdx i) i (tr ++ [l[i]])
  else (l, tr)
termination_by l.length - i
decreasing_by
  · omega
  · have hsl := swapRemove_length l i (by intro hn; subst hn; simp at h)
    omega
  · have hel := List.length_eraseIdx_of_lt h
    omega

/-- retain_unordered itself: the retained vector. -/
def retain_unordered {α : Type} (f : α → Bool) (l : List α) : List α :=
  (retainUnorderedGo f l 0 []).1

/-- The list of elements on which the predicate was invoked, in invocation
order. -/
def visitTrace {α : Type} (f : α → Bool) (l : List α) : List α :=
  (retainUnorderedGo f l 0 []).2

theorem retainUnorderedGo_spec {α : Type} (f : α → Bool) :
    ∀ (n : Nat) (l : List α) (i : Nat) (tr : List α), l.length - i = n → i ≤ l.length →
      ((retainUnorderedGo f l i tr).1).Perm (l.take i ++ (l.drop i).filter f)
      ∧ ((retainUnorderedGo f l i tr).2).Perm (tr ++ l.drop i) := by
  intro n
  induction n with
  | zero =>
    intro l i tr hn hi
    have hie : i = l.length := by omega
    rw [retainUnorderedGo, dif_neg (by omega)]
    subst hie
    constructor
    · simp
    · simp
  | succ m ih =>
    intro l i tr hn hi
    have hlt : i < l.length := by omega
    have hdropi : l.drop i = l[i] :: l.drop (i + 1) := List.drop_eq_getElem_cons hlt
    rw [retainUnorderedGo, dif_pos hlt]
    by_cases hf : f l[i] = true
    · rw [if_pos hf]
      obtain ⟨h1, h2⟩ := ih l (i + 1) (tr ++ [l[i]]) (by omega) (by omega)
      have htakei : l.take (i + 1) = l.take i ++ [l[i]] :=
        (List.take_concat_get' l i hlt).symm
      constructor
      · refine h1.trans ?_
        rw [htakei, hdropi, List.filter_cons_of_pos hf, List.append_assoc,
          List.singleton_append]
      · refine h2.trans ?_
        rw [hdropi, List.append_assoc, List.singleton_append]
    · rw [if_neg hf]
      have hfneg : (l.drop i).filter f = (l.drop (i + 1)).filter f := by
        rw [hdropi, List.filter_cons_of_neg hf]
      by_cases hbig : 1 < l.length
      · rw [if_pos hbig]
        have hne : l ≠ [] := by intro hn2; subst hn2; simp at hlt
        have hwf : (swapRemove l i).length = l.length - 1 := swapRemove_length l i hne
        obtain ⟨h1, h2⟩ := ih (swapRemove l i) i (tr ++ [l[i]]) (by omega) (by omega)
        have htake := swapRemove_take l i hlt
        have hdropP := swapRemove_drop_perm l i hlt
        constructor
        · refine h1.trans ?_
          rw [htake, hfneg]
          exact List.Perm.append_left _ (hdropP.filter f)
        · refine h2.trans ?_
          refine (List.Perm.append_left _ hdropP).trans ?_
          rw [hdropi, List.append_assoc, List.singleton_append]
      · rw [if_neg hbig]
        have hlen1 : l.length = 1 := by omega
        have hi0 : i = 0 := by omega
        subst hi0
        obtain ⟨x, rfl⟩ := List.length_eq_one.mp hlen1
        have hfx : f x = false := by simpa using hf
        rw [show ([x] : List α).eraseIdx 0 = [] from rfl]
        rw [retainUnorderedGo, dif_neg (by simp)]
        constructor
        · simp [hfx]
        · simp

/-- C8: for every vector and every predicate, the order-agnostic removal
retain_unordered invokes the predicate exactly once on each element
originally present (the invocation trace is a permutation of the input, so
no surviving element is skipped or visited twice in the pass), and the
resulting vector holds, as a multiset, exactly the elements for which the
predicate returned true. -/
theorem retain_unordered_spec {α : Type} (f : α → Bool) (l : List α) :
    (retain_unordered f l).Perm (l.filter f) ∧ (visitTrace f l).Perm l := by
  obtain ⟨h1, h2⟩ := retainUnorderedGo_spec f l.length l 0 [] (by omega) (by omega)
  constructor
  · simpa [retain_unordered] using h1
  · simpa [visitTrace] using h2

end Tarssh
